import Mathlib

/-!
Verification of the vuepress-plugin-apidoc metadata pipeline
(`packages/vuepress-plugin-apidoc/index.js`).

The JavaScript source is shallowly embedded: metadata objects become Lean
structures, in-place mutation becomes explicit state passing, the external
markdown renderer and the link resolver become function parameters, and
code that can throw is modelled in `Except Unit`.
-/

namespace ApiDoc

/-- One example entry of a member (`{description, code}`). -/
structure Example where
  description : String
  code : String
deriving DecidableEq

/-- The `examples` field of a member: a raw list as loaded from the
generator, or the single rendered HTML string the pipeline collapses it
into (the source overwrites the array field with a string). -/
inductive ExamplesField where
  | raw (entries : List Example)
  | rendered (html : String)
deriving DecidableEq

/-- The optional `deprecated` object of a member; only its optional
`notes` field is touched by the pipeline. -/
structure Deprecated where
  notes : Option String
deriving DecidableEq

/-- The optional `returns` object of a member; only its optional
`summary` field is touched by the pipeline. -/
structure ReturnsInfo where
  summary : Option String
deriving DecidableEq

/-- A property / method / event entry of a type. -/
structure Member where
  name : String
  summary : Option String
  description : Option String
  examples : Option ExamplesField
  deprecated : Option Deprecated
  returns : Option ReturnsInfo
  inherits : Option String
deriving DecidableEq

/-- A navigation header `{level, title, slug}`. -/
structure Header where
  level : Nat
  title : String
  slug : String
deriving DecidableEq

/-- A type metadata object. `constants` is empty as loaded and is filled
by `splitPropertiesAndConstants`. -/
structure Metadata where
  name : String
  summary : String
  description : Option String
  examples : Option ExamplesField
  properties : List Member
  methods : List Member
  events : List Member
  constants : List Member
deriving DecidableEq

/-- A resolved link target `{name, path}`. -/
structure LinkTarget where
  name : String
  path : String
deriving DecidableEq

instance {ε α : Type} [DecidableEq ε] [DecidableEq α] : DecidableEq (Except ε α) :=
  fun a b =>
    match a, b with
    | .ok x, .ok y =>
      if h : x = y then .isTrue (by rw [h]) else .isFalse (fun hc => h (by injection hc))
    | .error x, .error y =>
      if h : x = y then .isTrue (by rw [h]) else .isFalse (fun hc => h (by injection hc))
    | .ok _, .error _ => .isFalse (fun hc => Except.noConfusion hc)
    | .error _, .ok _ => .isFalse (fun hc => Except.noConfusion hc)

/-- One character of the constant naming pattern `[A-Z0-9_]`
(`Char.isUpper` and `Char.isDigit` are exactly the ASCII ranges). -/
def isConstantChar (c : Char) : Bool :=
  c.isUpper || c.isDigit || c = '_'

/-- `constantNamingPattern.test name` for the anchored regex
`^[A-Z0-9_]+$`: at least one character, all drawn from the class. -/
def isConstantName (s : String) : Bool :=
  !s.data.isEmpty && s.data.all isConstantChar

/-- `.toLowerCase()` of JavaScript, modelled character by character
(`Char.toLower` lowers exactly the ASCII uppercase range). -/
def toLowerJs (s : String) : String :=
  String.mk (s.data.map Char.toLower)

/-- The predicate of `filterInherited` inside `filterInheritedMembers`:
a member is kept unless `member.inherits` is truthy (a nonempty string in
JavaScript) and differs from the type name. -/
def keepMember (typeName : String) (member : Member) : Bool :=
  match member.inherits with
  | some inherits => if inherits.isEmpty then true else inherits == typeName
  | none => true

/-- `filterInheritedMembers(metadata)`: filters the three member lists
in place with `filterInherited`. -/
def filterInheritedMembers (metadata : Metadata) : Metadata :=
  { metadata with
    properties := metadata.properties.filter (keepMember metadata.name),
    methods := metadata.methods.filter (keepMember metadata.name),
    events := metadata.events.filter (keepMember metadata.name) }

/-- The comparator `(a, b) => a.name.localeCompare(b.name)` induces this
ordering on members; `lc` stands for the host `localeCompare`, an
arbitrary integer-valued comparison supplied as a parameter. -/
def nameLe (lc : String → String → Int) (a b : Member) : Prop :=
  lc a.name b.name ≤ 0

instance (lc : String → String → Int) : DecidableRel (nameLe lc) :=
  fun a b => inferInstanceAs (Decidable (lc a.name b.name ≤ 0))

/-- `sortByName(unsortedArray)`: `Array.prototype.sort` with the
`localeCompare` comparator. ECMAScript specifies a stable sort, whose
output on a consistent comparator is the output of insertion sort. -/
def sortByName (lc : String → String → Int) (unsortedArray : List Member) : List Member :=
  unsortedArray.insertionSort (nameLe lc)

/-- The loop of `splitPropertiesAndConstants`: push each property onto
`constants` when its name matches the constant pattern, else onto
`properties`. -/
def splitLoop (l : List Member) (acc : List Member × List Member) :
    List Member × List Member :=
  l.foldl
    (fun acc property =>
      if isConstantName property.name then (acc.1, acc.2 ++ [property])
      else (acc.1 ++ [property], acc.2))
    acc

/-- `splitPropertiesAndConstants(metadata)`: walk `properties` once and
reassign `metadata.properties` and `metadata.constants`. -/
def splitPropertiesAndConstants (metadata : Metadata) : Metadata :=
  let split := splitLoop metadata.properties ([], [])
  { metadata with properties := split.1, constants := split.2 }

/-- A member's `inherits` field is set in the JavaScript truthiness
sense: present and a nonempty string. -/
def inheritsSet (m : Member) : Prop :=
  ∃ s, m.inherits = some s ∧ s ≠ ""

theorem splitLoop_eq (l : List Member) (acc : List Member × List Member) :
    splitLoop l acc =
      (acc.1 ++ l.filter (fun p => !isConstantName p.name),
       acc.2 ++ l.filter (fun p => isConstantName p.name)) := by
  induction l generalizing acc with
  | nil => simp [splitLoop]
  | cons p l ih =>
    simp only [splitLoop, List.foldl_cons] at *
    by_cases hp : isConstantName p.name
    · simp [hp, ih]
    · simp [hp, ih]

/-- C2: `splitPropertiesAndConstants` partitions the pre-split
`properties` list: the two resulting lists are the non-constant and
constant sublists, their name sets are disjoint, their union is the
pre-split name set, membership is decided by the anchored constant
pattern on the member name, and each resulting list keeps the relative
order of the pre-split list (it is a sublist of it). -/
theorem splitPropertiesAndConstants_partition (metadata : Metadata) :
    (splitPropertiesAndConstants metadata).properties
        = metadata.properties.filter (fun p => !isConstantName p.name) ∧
    (splitPropertiesAndConstants metadata).constants
        = metadata.properties.filter (fun p => isConstantName p.name) ∧
    (∀ n, n ∈ (splitPropertiesAndConstants metadata).properties.map Member.name →
        n ∉ (splitPropertiesAndConstants metadata).constants.map Member.name) ∧
    (∀ n, n ∈ metadata.properties.map Member.name ↔
        (n ∈ (splitPropertiesAndConstants metadata).properties.map Member.name ∨
         n ∈ (splitPropertiesAndConstants metadata).constants.map Member.name)) ∧
    (∀ m ∈ metadata.properties,
        (isConstantName m.name = true → m ∈ (splitPropertiesAndConstants metadata).constants) ∧
        (isConstantName m.name = false → m ∈ (splitPropertiesAndConstants metadata).properties)) ∧
    List.Sublist (splitPropertiesAndConstants metadata).properties metadata.properties ∧
    List.Sublist (splitPropertiesAndConstants metadata).constants metadata.properties := by
  have hp : (splitPropertiesAndConstants metadata).properties
      = metadata.properties.filter (fun p => !isConstantName p.name) := by
    simp [splitPropertiesAndConstants, splitLoop_eq]
  have hc : (splitPropertiesAndConstants metadata).constants
      = metadata.properties.filter (fun p => isConstantName p.name) := by
    simp [splitPropertiesAndConstants, splitLoop_eq]
  refine ⟨hp, hc, ?_, ?_, ?_, ?_, ?_⟩
  · intro n hn hn'
    rw [hp] at hn
    rw [hc] at hn'
    obtain ⟨m, hm, hmn⟩ := List.mem_map.mp hn
    obtain ⟨m', hm', hmn'⟩ := List.mem_map.mp hn'
    have h1 : isConstantName m.name = false := by
      have := (List.mem_filter.mp hm).2
      simpa using this
    have h2 : isConstantName m'.name = true := (List.mem_filter.mp hm').2
    rw [hmn] at h1
    rw [hmn'] at h2
    rw [h1] at h2
    cases h2
  · intro n
    rw [hp, hc]
    constructor
    · intro hn
      obtain ⟨m, hm, hmn⟩ := List.mem_map.mp hn
      by_cases hcm : isConstantName m.name
      · exact Or.inr (List.mem_map.mpr ⟨m, List.mem_filter.mpr ⟨hm, by simp [hcm]⟩, hmn⟩)
      · exact Or.inl (List.mem_map.mpr ⟨m, List.mem_filter.mpr ⟨hm, by simp [hcm]⟩, hmn⟩)
    · intro hn
      rcases hn with hn | hn <;>
        · obtain ⟨m, hm, hmn⟩ := List.mem_map.mp hn
          exact List.mem_map.mpr ⟨m, (List.mem_filter.mp hm).1, hmn⟩
  · intro m hm
    constructor
    · intro hcm
      rw [hc]
      exact List.mem_filter.mpr ⟨hm, by simp [hcm]⟩
    · intro hcm
      rw [hp]
      exact List.mem_filter.mpr ⟨hm, by simp [hcm]⟩
  · rw [hp]; exact List.filter_sublist _
  · rw [hc]; exact List.filter_sublist _

/-- C4: `filterInheritedMembers` filters each of the three member kinds
independently with the same predicate: a member is removed exactly when
its `inherits` field is set (a nonempty string) and differs from the
type's own name; members with no `inherits` (absent or empty) or with
`inherits` equal to the type name are kept, and each filtered list keeps
the relative order of its input (it is a sublist of it). -/
theorem filterInheritedMembers_correct (metadata : Metadata) :
    (filterInheritedMembers metadata).properties
        = metadata.properties.filter (keepMember metadata.name) ∧
    (filterInheritedMembers metadata).methods
        = metadata.methods.filter (keepMember metadata.name) ∧
    (filterInheritedMembers metadata).events
        = metadata.events.filter (keepMember metadata.name) ∧
    (∀ m : Member, keepMember metadata.name m = true ↔
        ¬(inheritsSet m ∧ m.inherits ≠ some metadata.name)) ∧
    List.Sublist (filterInheritedMembers metadata).properties metadata.properties ∧
    List.Sublist (filterInheritedMembers metadata).methods metadata.methods ∧
    List.Sublist (filterInheritedMembers metadata).events metadata.events := by
  refine ⟨rfl, rfl, rfl, ?_, List.filter_sublist _, List.filter_sublist _,
    List.filter_sublist _⟩
  intro m
  cases hinh : m.inherits with
  | none =>
    constructor
    · intro _ hcon
      obtain ⟨⟨s, hse, _⟩, _⟩ := hcon
      rw [hinh] at hse
      cases hse
    · intro _
      simp [keepMember, hinh]
  | some s =>
    by_cases hs : s = ""
    · subst hs
      constructor
      · intro _ hcon
        obtain ⟨⟨t, hse, ht⟩, _⟩ := hcon
        rw [hinh] at hse
        cases hse
        exact ht rfl
      · intro _
        simp only [keepMember, hinh]
        exact if_pos (by decide)
    · have hse : s.isEmpty = false := by
        cases hne : s.isEmpty
        · rfl
        · exact absurd ((String.isEmpty_iff s).mp hne) hs
      constructor
      · intro h hcon
        apply hcon.2
        have : (s == metadata.name) = true := by
          simpa [keepMember, hinh, hse] using h
        rw [eq_of_beq this]
      · intro h
        simp only [keepMember, hinh, hse, Bool.false_eq_true, if_false, beq_iff_eq]
        by_contra hne
        exact h ⟨⟨s, hinh, hs⟩, by simp [hinh, hne]⟩

/-- The version argument computed at the top of `rewriteTypeLinks`:
`(versions.length === 0 || this.version === versions[0]) ? null : this.version`. -/
def versionArg (versions : List String) (thisVersion : String) : Option String :=
  if versions.length = 0 ∨ versions.head? = some thisVersion then none
  else some thisVersion

/-- Scanner state for the global replace of the angle-bracket pattern:
either scanning, or inside a candidate span after a literal opening
bracket, holding the reversed span characters read so far. -/
inductive AngleState where
  | scan
  | run (accRev : List Char)

/-- The global replace of `customLinkPattern`, the regex matching a span
of one or more characters other than slash and the closing bracket,
between angle brackets. A successful match whose span resolves is
replaced by the markdown link built from the resolved target; an
unresolved match and a failed candidate are emitted verbatim. The
JavaScript engine retries a failed match at every following index, but
any candidate starting inside a failed span stops at the same blocking
character and fails too, so resuming right at the blocking character
produces the same output. -/
def angleGo (f : String → Option LinkTarget) : AngleState → List Char → List Char
  | .scan, [] => []
  | .scan, c :: rest =>
    if c = '<' then angleGo f (.run []) rest
    else c :: angleGo f .scan rest
  | .run accRev, [] => '<' :: accRev.reverse
  | .run accRev, c :: rest =>
    if c = '>' then
      if accRev.isEmpty then '<' :: '>' :: angleGo f .scan rest
      else
        match f (String.mk accRev.reverse) with
        | some link =>
            '[' :: (link.name.data ++ ']' :: '(' :: (link.path.data ++ ')' :: angleGo f .scan rest))
        | none => '<' :: (accRev.reverse ++ '>' :: angleGo f .scan rest)
    else if c = '/' then
      '<' :: (accRev.reverse ++ '/' :: angleGo f .scan rest)
    else angleGo f (.run (c :: accRev)) rest

/-- Scanner state for the global replace of the markdown-link pattern:
scanning, inside the bracketed text, between the closing bracket and the
opening parenthesis, or inside the parenthesised target. -/
inductive MdState where
  | scan
  | text (accRev : List Char)
  | afterText (text : List Char)
  | target (text : List Char) (accRev : List Char)

/-- The global replace of `mdLinkPattern`, the regex matching bracketed
nonempty text followed by a parenthesised nonempty target. A match
whose target resolves is replaced by the markdown link built from the
resolved target; an unresolved match and a failed candidate are emitted
verbatim. As for `angleGo`, a candidate starting inside a failed span
fails at the same blocking character, so resuming there matches the
JavaScript engine's search. -/
def mdGo (f : String → Option LinkTarget) : MdState → List Char → List Char
  | .scan, [] => []
  | .scan, c :: rest =>
    if c = '[' then mdGo f (.text []) rest
    else c :: mdGo f .scan rest
  | .text accRev, [] => '[' :: accRev.reverse
  | .text accRev, c :: rest =>
    if c = ']' then
      if accRev.isEmpty then '[' :: ']' :: mdGo f .scan rest
      else mdGo f (.afterText accRev.reverse) rest
    else mdGo f (.text (c :: accRev)) rest
  | .afterText text, [] => '[' :: (text ++ [']'])
  | .afterText text, c :: rest =>
    if c = '(' then mdGo f (.target text []) rest
    else if c = '[' then ('[' :: (text ++ [']'])) ++ mdGo f (.text []) rest
    else ('[' :: (text ++ [']'])) ++ c :: mdGo f .scan rest
  | .target text accRev, [] => '[' :: (text ++ ']' :: '(' :: accRev.reverse)
  | .target text accRev, c :: rest =>
    if c = ')' then
      if accRev.isEmpty then
        '[' :: (text ++ ']' :: '(' :: ')' :: mdGo f .scan rest)
      else
        match f (String.mk accRev.reverse) with
        | some link =>
            '[' :: (link.name.data ++ ']' :: '(' :: (link.path.data ++ ')' :: mdGo f .scan rest))
        | none =>
            '[' :: (text ++ ']' :: '(' :: (accRev.reverse ++ ')' :: mdGo f .scan rest))
    else mdGo f (.target text (c :: accRev)) rest

/-- `rewriteTypeLinks(markdownString)`: compute the version argument
once, replace the angle-bracket pattern over the whole string, then
replace the markdown-link pattern over the result. `resolve` stands for
the external `getLinkForKeyPath` with the processor's base path already
applied. -/
def rewriteTypeLinks (resolve : String → Option String → Option LinkTarget)
    (versions : List String) (thisVersion : String) (markdownString : String) : String :=
  let version := versionArg versions thisVersion
  let f := fun (keyPath : String) => resolve keyPath version
  let s1 := String.mk (angleGo f AngleState.scan markdownString.data)
  String.mk (mdGo f MdState.scan s1.data)

/-- C6 counterexample: with exactly one declared version `"1.0"` and a
processor whose version `"next"` differs from it, the code passes the
processor's own version to the resolver, not the null sentinel the
claim requires whenever there is a single declared version;
`rewriteTypeLinks` observably hands `some "next"` to the resolver. -/
theorem versionArg_single_version_counterexample :
    versionArg ["1.0"] "next" = some "next" ∧
    rewriteTypeLinks
        (fun _ v => if v == some "next" then some { name := "R", path := "/r" } else none)
        ["1.0"] "next" "<Key>" = "[R](/r)" := by
  exact ⟨rfl, rfl⟩

/-- C6 amended: the version argument handed to the resolver is the null
sentinel exactly when there are no declared versions at all or the
processor's version equals the first declared version; in every other
case, including a single declared version different from the
processor's version, it is the processor's own version. -/
theorem versionArg_spec (versions : List String) (thisVersion : String) :
    (versionArg versions thisVersion = none ↔
      (versions = [] ∨ versions.head? = some thisVersion)) ∧
    (versionArg versions thisVersion = some thisVersion ↔
      ¬(versions = [] ∨ versions.head? = some thisVersion)) := by
  unfold versionArg
  by_cases h : versions.length = 0 ∨ versions.head? = some thisVersion
  · rw [if_pos h]
    have h' : versions = [] ∨ versions.head? = some thisVersion := by
      rcases h with h | h
      · exact Or.inl (List.length_eq_zero.mp h)
      · exact Or.inr h
    simp [h']
  · rw [if_neg h]
    have h' : ¬(versions = [] ∨ versions.head? = some thisVersion) := by
      intro hc
      apply h
      rcases hc with hc | hc
      · exact Or.inl (by simp [hc])
      · exact Or.inr hc
    simp [h']

theorem angleGo_run_spec (f : String → Option LinkTarget) (K : List Char) :
    ∀ (acc rest : List Char), (∀ c ∈ K, c ≠ '>' ∧ c ≠ '/') →
    angleGo f (.run acc) (K ++ '>' :: rest) =
      if acc.reverse ++ K = [] then '<' :: '>' :: angleGo f .scan rest
      else
        match f (String.mk (acc.reverse ++ K)) with
        | some link =>
            '[' :: (link.name.data ++ ']' :: '(' :: (link.path.data ++ ')' :: angleGo f .scan rest))
        | none => '<' :: ((acc.reverse ++ K) ++ '>' :: angleGo f .scan rest) := by
  induction K with
  | nil =>
    intro acc rest _
    simp only [List.append_nil, List.nil_append]
    rw [angleGo]
    simp only [if_pos rfl]
    by_cases hacc : acc = []
    · subst hacc
      simp
    · have h1 : acc.isEmpty = false := by
        cases acc
        · exact absurd rfl hacc
        · rfl
      have h2 : acc.reverse ≠ [] := by simpa using hacc
      simp only [h1, Bool.false_eq_true, if_false, if_neg h2]
      simp
  | cons k K ih =>
    intro acc rest hK
    have hk := hK k (List.mem_cons_self k K)
    have hK' : ∀ c ∈ K, c ≠ '>' ∧ c ≠ '/' := fun c hc => hK c (List.mem_cons_of_mem _ hc)
    have hstep : angleGo f (.run acc) ((k :: K) ++ '>' :: rest)
        = angleGo f (.run (k :: acc)) (K ++ '>' :: rest) := by
      rw [List.cons_append, angleGo]
      simp only [if_neg hk.1, if_neg hk.2]
    rw [hstep, ih (k :: acc) rest hK']
    have hrev : (k :: acc).reverse ++ K = acc.reverse ++ (k :: K) := by
      simp
    rw [hrev]

theorem mdGo_text_spec (f : String → Option LinkTarget) (T : List Char) :
    ∀ (acc rest : List Char), (∀ c ∈ T, c ≠ ']') →
    mdGo f (.text acc) (T ++ ']' :: rest) =
      if acc.reverse ++ T = [] then '[' :: ']' :: mdGo f .scan rest
      else mdGo f (.afterText (acc.reverse ++ T)) rest := by
  induction T with
  | nil =>
    intro acc rest _
    simp only [List.append_nil, List.nil_append]
    rw [mdGo]
    simp only [if_pos rfl]
    by_cases hacc : acc = []
    · subst hacc
      simp
    · have h1 : acc.isEmpty = false := by
        cases acc
        · exact absurd rfl hacc
        · rfl
      have h2 : acc.reverse ≠ [] := by simpa using hacc
      simp only [h1, Bool.false_eq_true, if_false, if_neg h2]
      simp
  | cons t T ih =>
    intro acc rest hT
    have ht := hT t (List.mem_cons_self t T)
    have hT' : ∀ c ∈ T, c ≠ ']' := fun c hc => hT c (List.mem_cons_of_mem _ hc)
    have hstep : mdGo f (.text acc) ((t :: T) ++ ']' :: rest)
        = mdGo f (.text (t :: acc)) (T ++ ']' :: rest) := by
      rw [List.cons_append, mdGo]
      simp only [if_neg ht]
    rw [hstep, ih (t :: acc) rest hT']
    have hrev : (t :: acc).reverse ++ T = acc.reverse ++ (t :: T) := by
      simp
    rw [hrev, if_neg (by simp : ¬acc.reverse ++ t :: T = [])]

theorem mdGo_target_spec (f : String → Option LinkTarget) (K : List Char) :
    ∀ (text acc rest : List Char), (∀ c ∈ K, c ≠ ')') →
    mdGo f (.target text acc) (K ++ ')' :: rest) =
      if acc.reverse ++ K = [] then '[' :: (text ++ ']' :: '(' :: ')' :: mdGo f .scan rest)
      else
        match f (String.mk (acc.reverse ++ K)) with
        | some link =>
            '[' :: (link.name.data ++ ']' :: '(' :: (link.path.data ++ ')' :: mdGo f .scan rest))
        | none =>
            '[' :: (text ++ ']' :: '(' :: ((acc.reverse ++ K) ++ ')' :: mdGo f .scan rest)) := by
  induction K with
  | nil =>
    intro text acc rest _
    simp only [List.append_nil, List.nil_append]
    rw [mdGo]
    simp only [if_pos rfl]
    by_cases hacc : acc = []
    · subst hacc
      simp
    · have h1 : acc.isEmpty = false := by
        cases acc
        · exact absurd rfl hacc
        · rfl
      have h2 : acc.reverse ≠ [] := by simpa using hacc
      simp only [h1, Bool.false_eq_true, if_false, if_neg h2]
      simp
  | cons k K ih =>
    intro text acc rest hK
    have hk := hK k (List.mem_cons_self k K)
    have hK' : ∀ c ∈ K, c ≠ ')' := fun c hc => hK c (List.mem_cons_of_mem _ hc)
    have hstep : mdGo f (.target text acc) ((k :: K) ++ ')' :: rest)
        = mdGo f (.target text (k :: acc)) (K ++ ')' :: rest) := by
      rw [List.cons_append, mdGo]
      simp only [if_neg hk]
    rw [hstep, ih text (k :: acc) rest hK']
    have hrev : (k :: acc).reverse ++ K = acc.reverse ++ (k :: K) := by
      simp
    rw [hrev, if_neg (by simp : ¬acc.reverse ++ k :: K = [])]

/-- The concrete resolver of the C5 example: `Foo.bar` resolves to the
target of the claim, every other key path fails to resolve. -/
def exResolve : String → Option String → Option LinkTarget :=
  fun keyPath _ =>
    if keyPath == "Foo.bar" then some { name := "Foo.bar", path := "/api/Foo.html#bar" }
    else none

/-- C5: in the angle-bracket replace, a span over a nonempty key
containing neither a slash nor a closing angle bracket is replaced by
the markdown link built from the resolved target when resolution
succeeds, and left character-for-character unchanged when resolution
fails (rewriting is a total function, so failure raises no error); the
markdown-link replace behaves the same on a parenthesised resolvable
target; in particular under the example resolver `<Foo.bar>` rewrites
to `[Foo.bar](/api/Foo.html#bar)`, a markdown link on target `Foo.bar`
rewrites the same way, and unresolvable `<Unknown.thing>` is unchanged. -/
theorem rewriteTypeLinks_spec :
    (∀ (f : String → Option LinkTarget) (K rest : List Char) (link : LinkTarget),
        K ≠ [] → (∀ c ∈ K, c ≠ '>' ∧ c ≠ '/') → f (String.mk K) = some link →
        angleGo f AngleState.scan ('<' :: (K ++ '>' :: rest)) =
          '[' :: (link.name.data ++ ']' :: '(' :: (link.path.data ++ ')' ::
            angleGo f AngleState.scan rest))) ∧
    (∀ (f : String → Option LinkTarget) (K rest : List Char),
        K ≠ [] → (∀ c ∈ K, c ≠ '>' ∧ c ≠ '/') → f (String.mk K) = none →
        angleGo f AngleState.scan ('<' :: (K ++ '>' :: rest)) =
          '<' :: (K ++ '>' :: angleGo f AngleState.scan rest)) ∧
    (∀ (f : String → Option LinkTarget) (T K rest : List Char) (link : LinkTarget),
        T ≠ [] → (∀ c ∈ T, c ≠ ']') → K ≠ [] → (∀ c ∈ K, c ≠ ')') →
        f (String.mk K) = some link →
        mdGo f MdState.scan ('[' :: (T ++ ']' :: '(' :: (K ++ ')' :: rest))) =
          '[' :: (link.name.data ++ ']' :: '(' :: (link.path.data ++ ')' ::
            mdGo f MdState.scan rest))) ∧
    (∀ (f : String → Option LinkTarget) (T K rest : List Char),
        T ≠ [] → (∀ c ∈ T, c ≠ ']') → K ≠ [] → (∀ c ∈ K, c ≠ ')') →
        f (String.mk K) = none →
        mdGo f MdState.scan ('[' :: (T ++ ']' :: '(' :: (K ++ ')' :: rest))) =
          '[' :: (T ++ ']' :: '(' :: (K ++ ')' :: mdGo f MdState.scan rest))) ∧
    rewriteTypeLinks exResolve [] "next" "<Foo.bar>" = "[Foo.bar](/api/Foo.html#bar)" ∧
    rewriteTypeLinks exResolve [] "next" "<Unknown.thing>" = "<Unknown.thing>" ∧
    rewriteTypeLinks exResolve [] "next" "[some text](Foo.bar)"
        = "[Foo.bar](/api/Foo.html#bar)" := by
  have hangle : ∀ (f : String → Option LinkTarget) (K rest : List Char),
      K ≠ [] → (∀ c ∈ K, c ≠ '>' ∧ c ≠ '/') →
      angleGo f AngleState.scan ('<' :: (K ++ '>' :: rest)) =
        match f (String.mk K) with
        | some link =>
            '[' :: (link.name.data ++ ']' :: '(' :: (link.path.data ++ ')' ::
              angleGo f AngleState.scan rest))
        | none => '<' :: (K ++ '>' :: angleGo f AngleState.scan rest) := by
    intro f K rest hne hK
    have h0 : angleGo f AngleState.scan ('<' :: (K ++ '>' :: rest))
        = angleGo f (.run []) (K ++ '>' :: rest) := by
      rw [angleGo]
      simp
    rw [h0, angleGo_run_spec f K [] rest hK]
    simp only [List.reverse_nil, List.nil_append]
    rw [if_neg hne]
  have hmd : ∀ (f : String → Option LinkTarget) (T K rest : List Char),
      T ≠ [] → (∀ c ∈ T, c ≠ ']') → K ≠ [] → (∀ c ∈ K, c ≠ ')') →
      mdGo f MdState.scan ('[' :: (T ++ ']' :: '(' :: (K ++ ')' :: rest))) =
        match f (String.mk K) with
        | some link =>
            '[' :: (link.name.data ++ ']' :: '(' :: (link.path.data ++ ')' ::
              mdGo f MdState.scan rest))
        | none => '[' :: (T ++ ']' :: '(' :: (K ++ ')' :: mdGo f MdState.scan rest)) := by
    intro f T K rest hTne hT hKne hK
    have h0 : mdGo f MdState.scan ('[' :: (T ++ ']' :: '(' :: (K ++ ')' :: rest)))
        = mdGo f (.text []) (T ++ ']' :: '(' :: (K ++ ')' :: rest)) := by
      rw [mdGo]
      simp
    rw [h0, mdGo_text_spec f T [] _ hT]
    simp only [List.reverse_nil, List.nil_append]
    rw [if_neg hTne]
    have h1 : mdGo f (.afterText T) ('(' :: (K ++ ')' :: rest))
        = mdGo f (.target T []) (K ++ ')' :: rest) := by
      rw [mdGo]
      simp
    rw [h1, mdGo_target_spec f K T [] rest hK]
    simp only [List.reverse_nil, List.nil_append]
    rw [if_neg hKne]
  refine ⟨?_, ?_, ?_, ?_, by rfl, by rfl, by rfl⟩
  · intro f K rest link hne hK hf
    rw [hangle f K rest hne hK, hf]
  · intro f K rest hne hK hf
    rw [hangle f K rest hne hK, hf]
  · intro f T K rest link hTne hT hKne hK hf
    rw [hmd f T K rest hTne hT hKne hK, hf]
  · intro f T K rest hTne hT hKne hK hf
    rw [hmd f T K rest hTne hT hKne hK, hf]

/-- Closed instance of the angle-bracket clause of the C5 theorem,
evaluated at the key `Foo.bar` with the example resolver. -/
theorem rewriteTypeLinks_spec_witness :
    angleGo (fun k => exResolve k none) AngleState.scan ('<' :: ("Foo.bar".data ++ '>' :: [])) =
      '[' :: ("Foo.bar".data ++ ']' :: '(' :: ("/api/Foo.html#bar".data ++ ')' ::
        angleGo (fun k => exResolve k none) AngleState.scan [])) :=
  rewriteTypeLinks_spec.1 (fun k => exResolve k none) "Foo.bar".data []
    { name := "Foo.bar", path := "/api/Foo.html#bar" }
    (by decide) (by decide) (by decide)

/-- The per-(version, type) processor state: its version, the collected
additional headers and the constants flag, as set up by the constructor
(`additionalHeaders = []`, `hasConstants = false`). The markdown
renderer, base path and resolver are passed as parameters instead of
being stored. -/
structure MetadataProcessor where
  version : String
  additionalHeaders : List Header
  hasConstants : Bool
deriving DecidableEq

/-- The `link_open` renderer rule slot of the shared markdown-it
instance: the rule installed by the surrounding site (the vue router
link rule) or the temporary pass-through replacement installed by the
pipeline. -/
inductive LinkOpenRule where
  | vueRouterLink
  | passthrough
deriving DecidableEq

/-- `renderMarkdown(markdownString)`: rewrite the type links, then hand
the result to the external markdown renderer, which may throw. -/
def renderMarkdown (rw : String → String) (render : String → Except Unit String)
    (markdownString : String) : Except Unit String :=
  render (rw markdownString)

/-- Render an optional textual field in place when it is truthy (present
and nonempty), as the `if (field) field = render(field)` steps do. -/
def renderOptField (rw : String → String) (render : String → Except Unit String)
    (field : Option String) : Except Unit (Option String) :=
  match field with
  | some s => if s.isEmpty then .ok (some s) else (renderMarkdown rw render s).map some
  | none => .ok none

/-- The combined markdown block built from a member's examples:
`#### Examples` followed by one subsection per example in list order. -/
def combinedExamples (entries : List Example) : String :=
  entries.foldl
    (fun acc e => acc ++ "##### " ++ e.description ++ "\n" ++ e.code)
    "#### Examples\n\n"

/-- The examples step: a truthy (nonempty) raw list is collapsed to one
rendered HTML string; an empty or absent field is untouched. A nonempty
already-rendered string would make the JavaScript `forEach` throw, which
is modelled as an error. -/
def transformExamples (rw : String → String) (render : String → Except Unit String)
    (field : Option ExamplesField) : Except Unit (Option ExamplesField) :=
  match field with
  | none => .ok none
  | some (.raw entries) =>
    if entries.isEmpty then .ok (some (.raw entries))
    else (renderMarkdown rw render (combinedExamples entries)).map
      (fun h => some (.rendered h))
  | some (.rendered h) =>
    if h.isEmpty then .ok (some (.rendered h))
    else .error ()

/-- The `deprecated.notes` step of the member transform. -/
def transformDeprecated (rw : String → String) (render : String → Except Unit String)
    (field : Option Deprecated) : Except Unit (Option Deprecated) :=
  match field with
  | some d => (renderOptField rw render d.notes).map (fun notes => some { d with notes := notes })
  | none => .ok none

/-- The `returns.summary` step of the member transform. -/
def transformReturns (rw : String → String) (render : String → Except Unit String)
    (field : Option ReturnsInfo) : Except Unit (Option ReturnsInfo) :=
  match field with
  | some r => (renderOptField rw render r.summary).map (fun s => some { r with summary := s })
  | none => .ok none

/-- The per-member body of the `forEach` in
`transformMembersAndCollectHeaders`: render `summary`, `description`,
`examples`, `deprecated.notes` and `returns.summary` in place, in that
order; a thrown render exception propagates. -/
def transformMember (rw : String → String) (render : String → Except Unit String)
    (m : Member) : Except Unit Member :=
  match renderOptField rw render m.summary with
  | .error e => .error e
  | .ok summary =>
    match renderOptField rw render m.description with
    | .error e => .error e
    | .ok description =>
      match transformExamples rw render m.examples with
      | .error e => .error e
      | .ok examples =>
        match transformDeprecated rw render m.deprecated with
        | .error e => .error e
        | .ok deprecated =>
          match transformReturns rw render m.returns with
          | .error e => .error e
          | .ok returnsInfo =>
            .ok { m with summary := summary, description := description,
                         examples := examples, deprecated := deprecated,
                         returns := returnsInfo }

/-- The `forEach` of `transformMembersAndCollectHeaders`: transform each
member in order; a member of the properties kind whose name matches the
constant pattern raises the constants flag and contributes no header;
every other member contributes a level-3 header titled with its name and
slugged with its lower-cased name. -/
def transformMembersLoop (rw : String → String) (render : String → Except Unit String)
    (isProps : Bool) : List Member → Except Unit (List Member × List Header × Bool)
  | [] => .ok ([], [], false)
  | m :: rest =>
    match transformMember rw render m with
    | .error e => .error e
    | .ok m' =>
      match transformMembersLoop rw render isProps rest with
      | .error e => .error e
      | .ok (ms, headers, found) =>
        if isProps && isConstantName m.name then
          .ok (m' :: ms, headers, true)
        else
          .ok (m' :: ms,
               { level := 3, title := m.name, slug := toLowerJs m.name } :: headers, found)

/-- `memberType.charAt(0).toUpperCase() + memberType.slice(1)`. -/
def capitalizeFirst (s : String) : String :=
  match s.data with
  | [] => ""
  | c :: rest => String.mk (c.toUpper :: rest)

/-- `transformMembersAndCollectHeaders(memberType, metadata)`: an empty
member list returns immediately; otherwise the members are transformed,
the constants flag is merged into the processor, and when at least one
member header was produced, a single level-2 group header titled with
the capitalized kind and slugged with the kind precedes the member
headers on the processor's accumulated list. -/
def transformMembersAndCollectHeaders (rw : String → String)
    (render : String → Except Unit String) (memberType : String)
    (members : List Member) (proc : MetadataProcessor) :
    Except Unit (List Member × MetadataProcessor) :=
  if members.isEmpty then .ok (members, proc)
  else
    match transformMembersLoop rw render (memberType == "properties") members with
    | .error e => .error e
    | .ok (ms, headers, found) =>
      let proc1 := { proc with hasConstants := proc.hasConstants || found }
      let proc2 :=
        if headers.isEmpty then proc1
        else { proc1 with additionalHeaders := proc1.additionalHeaders ++
            ({ level := 2, title := capitalizeFirst memberType, slug := memberType } :: headers) }
      .ok (ms, proc2)

/-- `appendAdditionalHeaders(page)` applied to the page's header list:
concatenate the processor's accumulated headers, then push one aggregate
Constants header when the constants flag is set. -/
def appendAdditionalHeaders (proc : MetadataProcessor) (pageHeaders : List Header) :
    List Header :=
  let headers := pageHeaders ++ proc.additionalHeaders
  if proc.hasConstants then
    headers ++ [{ level := 2, title := "Constants", slug := "constants" }]
  else headers

/-- The observable outcome of `transoformMetadataAndCollectHeaders`: the
returned (or thrown) result together with the final state of the shared
`link_open` renderer rule. -/
structure TransformOut where
  result : Except Unit (Metadata × MetadataProcessor)
  rule : LinkOpenRule

/-- Steps 1 to 3 of `transoformMetadataAndCollectHeaders`: delete the
top-level `description` and `examples`, filter inherited members, then
sort `properties` and `methods` by name. -/
def preparedMetadata (lc : String → String → Int) (metadata : Metadata) : Metadata :=
  let m1 : Metadata := { metadata with description := none, examples := none }
  let m2 := filterInheritedMembers m1
  { m2 with
    properties := sortByName lc m2.properties,
    methods := sortByName lc m2.methods }

/-- `transoformMetadataAndCollectHeaders(metadata)` (spelled as in the
source): prepare the metadata (strip, filter, sort), save the
`link_open` rule and swap it for a pass-through, render the summary and
the three member kinds, restore the saved rule, and split properties
from constants. A render exception propagates immediately; in that case
there is no restore, so the pass-through rule stays installed, which is
what the `rule` field of the outcome records. -/
def transoformMetadataAndCollectHeaders (resolve : String → Option String → Option LinkTarget)
    (render : String → Except Unit String) (lc : String → String → Int)
    (versions : List String) (proc : MetadataProcessor) (rule : LinkOpenRule)
    (metadata : Metadata) : TransformOut :=
  match renderMarkdown (rewriteTypeLinks resolve versions proc.version) render
      (preparedMetadata lc metadata).summary with
  | .error e => { result := .error e, rule := .passthrough }
  | .ok summaryHtml =>
    match transformMembersAndCollectHeaders (rewriteTypeLinks resolve versions proc.version)
        render "properties" (preparedMetadata lc metadata).properties proc with
    | .error e => { result := .error e, rule := .passthrough }
    | .ok (props, proc1) =>
      match transformMembersAndCollectHeaders (rewriteTypeLinks resolve versions proc.version)
          render "methods" (preparedMetadata lc metadata).methods proc1 with
      | .error e => { result := .error e, rule := .passthrough }
      | .ok (methodsL, proc2) =>
        match transformMembersAndCollectHeaders (rewriteTypeLinks resolve versions proc.version)
            render "events" (preparedMetadata lc metadata).events proc2 with
        | .error e => { result := .error e, rule := .passthrough }
        | .ok (eventsL, proc3) =>
          { result := .ok (splitPropertiesAndConstants
              { preparedMetadata lc metadata with
                summary := summaryHtml,
                properties := props,
                methods := methodsL,
                events := eventsL }, proc3),
            rule := rule }

/-- Code-point lexicographic comparison of character lists. -/
def lcChars : List Char → List Char → Int
  | [], [] => 0
  | [], _ :: _ => -1
  | _ :: _, [] => 1
  | a :: as, b :: bs =>
    if a.toNat < b.toNat then -1
    else if b.toNat < a.toNat then 1
    else lcChars as bs

/-- Code-point lexicographic string comparison, a concrete stand-in for
the host `localeCompare` in concrete pipeline runs. -/
def lcStd (a b : String) : Int :=
  lcChars a.data b.data

/-- A renderer that returns its input unchanged, for concrete runs. -/
def renderId : String → Except Unit String := fun s => .ok s

/-- A resolver on which every key path fails to resolve. -/
def resolveNone : String → Option String → Option LinkTarget := fun _ _ => none

/-- The processor state as built by the constructor for a version. -/
def procInit (version : String) : MetadataProcessor :=
  { version := version, additionalHeaders := [], hasConstants := false }

/-- A minimal metadata object with no members. -/
def emptyMeta : Metadata :=
  { name := "Example.Type", summary := "s", description := none, examples := none,
    properties := [], methods := [], events := [], constants := [] }

/-- C8: the claim is the intent, but the restore of the `link_open`
rule is not exception-safe in the code (there is no try/finally): with
a renderer that throws, `transoformMetadataAndCollectHeaders` exits
with the pass-through rule still installed in place of the original
rule, instead of the required restoration on every exit path. -/
theorem linkOpenRule_not_restored_on_throw :
    (transoformMetadataAndCollectHeaders resolveNone (fun _ => .error ()) lcStd []
        (procInit "next") LinkOpenRule.vueRouterLink emptyMeta).rule
      = LinkOpenRule.passthrough ∧
    (transoformMetadataAndCollectHeaders resolveNone (fun _ => .error ()) lcStd []
        (procInit "next") LinkOpenRule.vueRouterLink emptyMeta).result = .error () ∧
    LinkOpenRule.passthrough ≠ LinkOpenRule.vueRouterLink := by
  refine ⟨rfl, rfl, by decide⟩

theorem transformMember_name (rw : String → String) (render : String → Except Unit String)
    (m m' : Member) (h : transformMember rw render m = .ok m') :
    m'.name = m.name := by
  unfold transformMember at h
  split at h
  · exact Except.noConfusion h
  · split at h
    · exact Except.noConfusion h
    · split at h
      · exact Except.noConfusion h
      · split at h
        · exact Except.noConfusion h
        · split at h
          · exact Except.noConfusion h
          · simp only [Except.ok.injEq] at h
            subst h
            rfl

theorem transformMembersLoop_spec (rw : String → String)
    (render : String → Except Unit String) (isProps : Bool) :
    ∀ (ms ms' : List Member) (headers : List Header) (found : Bool),
    transformMembersLoop rw render isProps ms = .ok (ms', headers, found) →
    ms'.map Member.name = ms.map Member.name ∧
    headers = (ms.filter (fun m => !(isProps && isConstantName m.name))).map
      (fun m => { level := 3, title := m.name, slug := toLowerJs m.name }) ∧
    found = (isProps && ms.any (fun m => isConstantName m.name)) := by
  intro ms
  induction ms with
  | nil =>
    intro ms' headers found h
    simp only [transformMembersLoop, Except.ok.injEq, Prod.mk.injEq] at h
    obtain ⟨h1, h2, h3⟩ := h
    subst h1; subst h2; subst h3
    simp
  | cons m rest ih =>
    intro ms' headers found h
    rw [transformMembersLoop] at h
    cases h1 : transformMember rw render m with
    | error e => rw [h1] at h; exact Except.noConfusion h
    | ok m1 =>
      rw [h1] at h
      cases h2 : transformMembersLoop rw render isProps rest with
      | error e => rw [h2] at h; exact Except.noConfusion h
      | ok trip =>
        obtain ⟨ms0, headers0, found0⟩ := trip
        rw [h2] at h
        dsimp only at h
        obtain ⟨hn, hh, hf⟩ := ih ms0 headers0 found0 h2
        have hname : m1.name = m.name := transformMember_name rw render m m1 h1
        by_cases hc : (isProps && isConstantName m.name) = true
        · rw [if_pos hc] at h
          simp only [Except.ok.injEq, Prod.mk.injEq] at h
          obtain ⟨ha, hb, hcc⟩ := h
          subst ha; subst hb; subst hcc
          refine ⟨by simp [hname, hn], ?_, ?_⟩
          · rw [List.filter_cons_of_neg (by simp [hc]), hh]
          · have hp : isProps = true := by
              cases hp : isProps
              · rw [hp] at hc; exact Bool.noConfusion hc
              · rfl
            have hcn : isConstantName m.name = true := by
              cases hcn : isConstantName m.name
              · rw [hp, hcn] at hc; exact Bool.noConfusion hc
              · rfl
            simp [hp, hcn]
        · rw [if_neg hc] at h
          simp only [Except.ok.injEq, Prod.mk.injEq] at h
          obtain ⟨ha, hb, hcc⟩ := h
          subst ha; subst hb; subst hcc
          refine ⟨by simp [hname, hn], ?_, ?_⟩
          · rw [List.filter_cons_of_pos (by simp [hc]), hh, List.map_cons]
          · rw [hf]
            have hq := Bool.not_eq_true _ |>.mp hc
            cases hp : isProps
            · simp
            · rw [hp] at hq
              have hcn : isConstantName m.name = false := by
                cases hcn : isConstantName m.name
                · rfl
                · rw [hcn] at hq; simp at hq
              simp [hcn]

/-- The per-member level-3 headers a member list contributes for a
given kind: every member except the constant-named ones of the
properties kind, in list order, titled by name and slugged by the
lower-cased name. -/
def memberHeaders (memberType : String) (members : List Member) : List Header :=
  (members.filter (fun m => !((memberType == "properties") && isConstantName m.name))).map
    (fun m => { level := 3, title := m.name, slug := toLowerJs m.name })

theorem transformMembersAndCollectHeaders_spec (rw : String → String)
    (render : String → Except Unit String) (memberType : String)
    (members ms' : List Member) (proc proc' : MetadataProcessor)
    (h : transformMembersAndCollectHeaders rw render memberType members proc
        = .ok (ms', proc')) :
    ms'.map Member.name = members.map Member.name ∧
    proc'.version = proc.version ∧
    proc'.hasConstants = (proc.hasConstants ||
      ((memberType == "properties") && members.any (fun m => isConstantName m.name))) ∧
    proc'.additionalHeaders = proc.additionalHeaders ++
      (if (memberHeaders memberType members).isEmpty then []
       else { level := 2, title := capitalizeFirst memberType, slug := memberType }
         :: memberHeaders memberType members) := by
  unfold transformMembersAndCollectHeaders at h
  by_cases hemp : members.isEmpty
  · rw [if_pos hemp] at h
    simp only [Except.ok.injEq, Prod.mk.injEq] at h
    obtain ⟨h1, h2⟩ := h
    subst h1; subst h2
    have : members = [] := by
      cases members
      · rfl
      · exact Bool.noConfusion hemp
    subst this
    simp [memberHeaders]
  · rw [if_neg hemp] at h
    cases h2 : transformMembersLoop rw render (memberType == "properties") members with
    | error e => rw [h2] at h; exact Except.noConfusion h
    | ok trip =>
      obtain ⟨ms0, headers0, found0⟩ := trip
      rw [h2] at h
      obtain ⟨hn, hh, hf⟩ := transformMembersLoop_spec rw render _ members ms0 headers0 found0 h2
      have hmh : headers0 = memberHeaders memberType members := by
        rw [hh]; rfl
      simp only [Except.ok.injEq, Prod.mk.injEq] at h
      obtain ⟨h1, h3⟩ := h
      subst h1
      by_cases hhe : headers0.isEmpty
      · rw [if_pos hhe] at h3
        subst h3
        refine ⟨hn, rfl, by rw [hf], ?_⟩
        rw [← hmh]
        have : headers0 = [] := by
          cases hh0 : headers0
          · rfl
          · rw [hh0] at hhe; exact Bool.noConfusion hhe
        rw [this]
        simp
      · rw [if_neg hhe] at h3
        subst h3
        refine ⟨hn, rfl, by rw [hf], ?_⟩
        rw [← hmh]
        have : ¬headers0 = [] := by
          intro hcon
          rw [hcon] at hhe
          exact hhe rfl
        rw [if_neg (by simpa using this)]

/-- A constant-named property with no textual fields. -/
def exMAXSIZE : Member :=
  { name := "MAX_SIZE", summary := none, description := none, examples := none,
    deprecated := none, returns := none, inherits := none }

/-- An ordinary property with no textual fields. -/
def exTitle : Member :=
  { name := "title", summary := none, description := none, examples := none,
    deprecated := none, returns := none, inherits := none }

/-- The C7 example type: two properties, one constant-named and one
ordinary, no methods and no events. -/
def exMeta2 : Metadata :=
  { name := "Ex", summary := "", description := none, examples := none,
    properties := [exMAXSIZE, exTitle], methods := [], events := [], constants := [] }

/-- The metadata the pipeline produces from `exMeta2`. -/
def exMeta2Out : Metadata :=
  { exMeta2 with properties := [exTitle], constants := [exMAXSIZE] }

/-- The processor state the pipeline produces from `exMeta2`. -/
def exProc2Out : MetadataProcessor :=
  { version := "next",
    additionalHeaders := [{ level := 2, title := "Properties", slug := "properties" },
                          { level := 3, title := "title", slug := "title" }],
    hasConstants := true }

/-- C7: in general every member except the constant-named properties
contributes one level-3 header titled with the member name and slugged
with its lower-cased name, preceded by a single level-2 group header
for its kind exactly when the kind produced at least one member header;
concretely, the example type with properties `MAX_SIZE` and `title`
yields exactly the Properties group header and the `title` header from
the pipeline, and one call of `appendAdditionalHeaders` appends exactly
one aggregate Constants header. -/
theorem collectedHeaders_spec :
    (∀ (rw : String → String) (render : String → Except Unit String) (memberType : String)
        (members ms' : List Member) (proc proc' : MetadataProcessor),
      transformMembersAndCollectHeaders rw render memberType members proc = .ok (ms', proc') →
      proc'.additionalHeaders = proc.additionalHeaders ++
        (if (memberHeaders memberType members).isEmpty then []
         else { level := 2, title := capitalizeFirst memberType, slug := memberType }
           :: memberHeaders memberType members)) ∧
    (transoformMetadataAndCollectHeaders resolveNone renderId lcStd [] (procInit "next")
        LinkOpenRule.vueRouterLink exMeta2).result = .ok (exMeta2Out, exProc2Out) ∧
    exProc2Out.additionalHeaders =
      [{ level := 2, title := "Properties", slug := "properties" },
       { level := 3, title := "title", slug := "title" }] ∧
    appendAdditionalHeaders exProc2Out [] =
      [{ level := 2, title := "Properties", slug := "properties" },
       { level := 3, title := "title", slug := "title" },
       { level := 2, title := "Constants", slug := "constants" }] := by
  refine ⟨?_, by decide, by decide, by decide⟩
  intro rw render memberType members ms' proc proc' h
  exact (transformMembersAndCollectHeaders_spec rw render memberType members ms' proc proc' h).2.2.2

/-- Closed instance of the general clause of the C7 theorem, applied to
an empty methods list, whose hypothesis holds definitionally. -/
theorem collectedHeaders_spec_witness :
    (procInit "v").additionalHeaders = (procInit "v").additionalHeaders ++
      (if (memberHeaders "methods" ([] : List Member)).isEmpty then []
       else { level := 2, title := capitalizeFirst "methods", slug := "methods" }
         :: memberHeaders "methods" []) :=
  collectedHeaders_spec.1 id renderId "methods" [] [] (procInit "v") (procInit "v") rfl

theorem lcChars_total (as bs : List Char) : lcChars as bs ≤ 0 ∨ lcChars bs as ≤ 0 := by
  induction as generalizing bs with
  | nil => exact Or.inl (by cases bs <;> simp [lcChars])
  | cons a as ih =>
    cases bs with
    | nil => exact Or.inr (by simp [lcChars])
    | cons b bs =>
      rcases Nat.lt_trichotomy a.toNat b.toNat with hlt | heq | hgt
      · exact Or.inl (by simp [lcChars, hlt])
      · have h1 : ¬a.toNat < b.toNat := by omega
        have h2 : ¬b.toNat < a.toNat := by omega
        rcases ih bs with h | h
        · exact Or.inl (by simp [lcChars, h1, h2, h])
        · exact Or.inr (by simp [lcChars, h1, h2, h])
      · exact Or.inr (by simp [lcChars, hgt])

theorem lcChars_trans (as : List Char) : ∀ bs cs : List Char,
    lcChars as bs ≤ 0 → lcChars bs cs ≤ 0 → lcChars as cs ≤ 0 := by
  induction as with
  | nil => intro bs cs _ _; cases cs <;> simp [lcChars]
  | cons a as ih =>
    intro bs cs h1 h2
    cases bs with
    | nil => simp [lcChars] at h1
    | cons b bs =>
      cases cs with
      | nil => simp [lcChars] at h2
      | cons c cs =>
        rcases Nat.lt_trichotomy a.toNat b.toNat with hab | hab | hab
        · rcases Nat.lt_trichotomy b.toNat c.toNat with hbc | hbc | hbc
          · have : a.toNat < c.toNat := Nat.lt_trans hab hbc
            simp [lcChars, this]
          · have : a.toNat < c.toNat := by omega
            simp [lcChars, this]
          · exfalso
            have hx1 : ¬b.toNat < c.toNat := by omega
            simp [lcChars, hx1, hbc] at h2
        · rcases Nat.lt_trichotomy b.toNat c.toNat with hbc | hbc | hbc
          · have : a.toNat < c.toNat := by omega
            simp [lcChars, this]
          · have hx1 : ¬a.toNat < c.toNat := by omega
            have hx2 : ¬c.toNat < a.toNat := by omega
            have ha1 : ¬a.toNat < b.toNat := by omega
            have ha2 : ¬b.toNat < a.toNat := by omega
            have hb1 : ¬b.toNat < c.toNat := by omega
            have hb2 : ¬c.toNat < b.toNat := by omega
            simp only [lcChars, ha1, ha2, if_false] at h1
            simp only [lcChars, hb1, hb2, if_false] at h2
            simp only [lcChars, hx1, hx2, if_false]
            exact ih bs cs h1 h2
          · exfalso
            have hx1 : ¬b.toNat < c.toNat := by omega
            simp [lcChars, hx1, hbc] at h2
        · exfalso
          have hx1 : ¬a.toNat < b.toNat := by omega
          simp [lcChars, hx1, hab] at h1

theorem lcStd_total (a b : String) : lcStd a b ≤ 0 ∨ lcStd b a ≤ 0 :=
  lcChars_total a.data b.data

theorem lcStd_trans (a b c : String) : lcStd a b ≤ 0 → lcStd b c ≤ 0 → lcStd a c ≤ 0 :=
  lcChars_trans a.data b.data c.data

theorem sortByName_sorted (lc : String → String → Int)
    (htot : ∀ a b : String, lc a b ≤ 0 ∨ lc b a ≤ 0)
    (htrans : ∀ a b c : String, lc a b ≤ 0 → lc b c ≤ 0 → lc a c ≤ 0)
    (l : List Member) : (sortByName lc l).Pairwise (nameLe lc) := by
  haveI : IsTotal Member (nameLe lc) := ⟨fun a b => htot a.name b.name⟩
  haveI : IsTrans Member (nameLe lc) := ⟨fun a b c => htrans a.name b.name c.name⟩
  exact List.sorted_insertionSort (nameLe lc) l

theorem sortByName_stable (lc : String → String → Int) (l : List Member) (p : Member → Bool)
    (hp : ∀ a b : Member, p a = true → p b = true → nameLe lc a b) :
    (sortByName lc l).filter p = l.filter p := by
  have hsub : List.Sublist (l.filter p) (List.insertionSort (nameLe lc) l) := by
    apply List.sublist_insertionSort
    · exact List.pairwise_of_forall_mem_list (fun a ha b hb =>
        hp a b (List.of_mem_filter ha) (List.of_mem_filter hb))
    · exact List.filter_sublist l
  have hff : (l.filter p).filter p = l.filter p := by simp [List.filter_filter]
  have h1 : List.Sublist (l.filter p) ((List.insertionSort (nameLe lc) l).filter p) := by
    have h2 := hsub.filter p
    rwa [hff] at h2
  have hperm : List.Perm ((List.insertionSort (nameLe lc) l).filter p) (l.filter p) :=
    (List.perm_insertionSort (nameLe lc) l).filter p
  exact (h1.eq_of_length hperm.length_eq.symm).symm

theorem transform_ok_elim (resolve : String → Option String → Option LinkTarget)
    (render : String → Except Unit String) (lc : String → String → Int)
    (versions : List String) (proc : MetadataProcessor) (rule : LinkOpenRule)
    (metadata m' : Metadata) (proc' : MetadataProcessor)
    (h : (transoformMetadataAndCollectHeaders resolve render lc versions proc rule
        metadata).result = .ok (m', proc')) :
    ∃ (summaryHtml : String) (props methodsL eventsL : List Member)
      (proc1 proc2 : MetadataProcessor),
      transformMembersAndCollectHeaders (rewriteTypeLinks resolve versions proc.version) render
          "properties" (preparedMetadata lc metadata).properties proc = .ok (props, proc1) ∧
      transformMembersAndCollectHeaders (rewriteTypeLinks resolve versions proc.version) render
          "methods" (preparedMetadata lc metadata).methods proc1 = .ok (methodsL, proc2) ∧
      transformMembersAndCollectHeaders (rewriteTypeLinks resolve versions proc.version) render
          "events" (preparedMetadata lc metadata).events proc2 = .ok (eventsL, proc') ∧
      m' = splitPropertiesAndConstants
        { preparedMetadata lc metadata with
          summary := summaryHtml,
          properties := props,
          methods := methodsL,
          events := eventsL } := by
  unfold transoformMetadataAndCollectHeaders at h
  split at h
  · exact Except.noConfusion h
  · next summaryHtml hsum =>
    split at h
    · exact Except.noConfusion h
    · next props proc1 hprops =>
      split at h
      · exact Except.noConfusion h
      · next methodsL proc2 hmeth =>
        split at h
        · exact Except.noConfusion h
        · next eventsL proc3 hev =>
          dsimp only at h
          simp only [Except.ok.injEq, Prod.mk.injEq] at h
          obtain ⟨hm, hp⟩ := h
          subst hp
          exact ⟨summaryHtml, props, methodsL, eventsL, proc1, proc2, hprops, hmeth, hev,
            hm.symm⟩

theorem pairwise_nameLe_of_names (lc : String → String → Int) (xs ys : List Member)
    (hnames : xs.map Member.name = ys.map Member.name)
    (h : ys.Pairwise (nameLe lc)) : xs.Pairwise (nameLe lc) := by
  have h1 : (ys.map Member.name).Pairwise (fun a b => lc a b ≤ 0) := by
    rw [List.pairwise_map]
    exact h
  rw [← hnames] at h1
  rw [List.pairwise_map] at h1
  exact h1

/-- C3: after `transoformMetadataAndCollectHeaders` runs with any total
and transitive locale comparison (as a consistent `localeCompare` is),
the resulting `properties` and `methods` lists are in non-decreasing
name order; the sort is stable, stated for every predicate selecting a
class of mutually comparable members: sorting does not change their
relative order; and `events` are never sorted: their names stay exactly
in the order of the inheritance-filtered input. -/
theorem pipeline_sorted (resolve : String → Option String → Option LinkTarget)
    (render : String → Except Unit String) (lc : String → String → Int)
    (versions : List String) (proc : MetadataProcessor) (rule : LinkOpenRule)
    (metadata m' : Metadata) (proc' : MetadataProcessor)
    (htot : ∀ a b : String, lc a b ≤ 0 ∨ lc b a ≤ 0)
    (htrans : ∀ a b c : String, lc a b ≤ 0 → lc b c ≤ 0 → lc a c ≤ 0)
    (hok : (transoformMetadataAndCollectHeaders resolve render lc versions proc rule
        metadata).result = .ok (m', proc')) :
    m'.properties.Pairwise (nameLe lc) ∧
    m'.methods.Pairwise (nameLe lc) ∧
    (∀ (l : List Member) (p : Member → Bool),
      (∀ a b : Member, p a = true → p b = true → nameLe lc a b) →
      (sortByName lc l).filter p = l.filter p) ∧
    m'.events.map Member.name
      = (metadata.events.filter (keepMember metadata.name)).map Member.name := by
  obtain ⟨sh, props, methodsL, eventsL, p1, p2, hprops, hmeth, hev, hm⟩ :=
    transform_ok_elim resolve render lc versions proc rule metadata m' proc' hok
  have hpn := (transformMembersAndCollectHeaders_spec _ _ _ _ _ _ _ hprops).1
  have hmn := (transformMembersAndCollectHeaders_spec _ _ _ _ _ _ _ hmeth).1
  have hen := (transformMembersAndCollectHeaders_spec _ _ _ _ _ _ _ hev).1
  have hprep_p : (preparedMetadata lc metadata).properties
      = sortByName lc (metadata.properties.filter (keepMember metadata.name)) := rfl
  have hprep_m : (preparedMetadata lc metadata).methods
      = sortByName lc (metadata.methods.filter (keepMember metadata.name)) := rfl
  have hprep_e : (preparedMetadata lc metadata).events
      = metadata.events.filter (keepMember metadata.name) := rfl
  have hsorted_p : (preparedMetadata lc metadata).properties.Pairwise (nameLe lc) := by
    rw [hprep_p]
    exact sortByName_sorted lc htot htrans _
  have hsorted_m : (preparedMetadata lc metadata).methods.Pairwise (nameLe lc) := by
    rw [hprep_m]
    exact sortByName_sorted lc htot htrans _
  have hprops_pw : props.Pairwise (nameLe lc) :=
    pairwise_nameLe_of_names lc props _ hpn hsorted_p
  have hmeth_pw : methodsL.Pairwise (nameLe lc) :=
    pairwise_nameLe_of_names lc methodsL _ hmn hsorted_m
  have hsplit_p : m'.properties = props.filter (fun p => !isConstantName p.name) := by
    rw [hm]
    simp [splitPropertiesAndConstants, splitLoop_eq]
  have hsplit_m : m'.methods = methodsL := by
    rw [hm]
    rfl
  have hsplit_e : m'.events = eventsL := by
    rw [hm]
    rfl
  refine ⟨?_, ?_, ?_, ?_⟩
  · rw [hsplit_p]
    exact List.Pairwise.sublist (List.filter_sublist props) hprops_pw
  · rw [hsplit_m]
    exact hmeth_pw
  · intro l p hp
    exact sortByName_stable lc l p hp
  · rw [hsplit_e, hen, hprep_e]

/-- Closed instance of the C3 theorem on the concrete example type with
the code-point comparator; all hypotheses are discharged concretely. -/
theorem pipeline_sorted_witness :
    exMeta2Out.properties.Pairwise (nameLe lcStd) ∧
    exMeta2Out.methods.Pairwise (nameLe lcStd) ∧
    (∀ (l : List Member) (p : Member → Bool),
      (∀ a b : Member, p a = true → p b = true → nameLe lcStd a b) →
      (sortByName lcStd l).filter p = l.filter p) ∧
    exMeta2Out.events.map Member.name
      = (exMeta2.events.filter (keepMember exMeta2.name)).map Member.name :=
  pipeline_sorted resolveNone renderId lcStd [] (procInit "next") LinkOpenRule.vueRouterLink
    exMeta2 exMeta2Out exProc2Out lcStd_total lcStd_trans (by decide)

theorem any_eq_not_isEmpty_filter {α : Type} (l : List α) (q : α → Bool) :
    l.any q = !(l.filter q).isEmpty := by
  induction l with
  | nil => rfl
  | cons a l ih =>
    by_cases hq : q a = true
    · simp [List.filter_cons, hq]
    · have hq' : q a = false := by
        cases hqq : q a
        · rfl
        · exact absurd hqq hq
      simp [List.filter_cons, hq', ih]

/-- C10: for a pipeline run started on a fresh processor (as the
constructor builds it), the final constants flag is set exactly when the
produced `constants` list is nonempty, and therefore
`appendAdditionalHeaders` emits the aggregate Constants header exactly
when the processed metadata carries at least one constant. -/
theorem hasConstants_iff_constants (resolve : String → Option String → Option LinkTarget)
    (render : String → Except Unit String) (lc : String → String → Int)
    (versions : List String) (version : String) (rule : LinkOpenRule)
    (metadata m' : Metadata) (proc' : MetadataProcessor)
    (hok : (transoformMetadataAndCollectHeaders resolve render lc versions (procInit version)
        rule metadata).result = .ok (m', proc')) :
    (proc'.hasConstants = true ↔ m'.constants ≠ []) ∧
    appendAdditionalHeaders proc' [] = proc'.additionalHeaders ++
      (if m'.constants.isEmpty then []
       else [{ level := 2, title := "Constants", slug := "constants" }]) := by
  obtain ⟨sh, props, methodsL, eventsL, p1, p2, hprops, hmeth, hev, hm⟩ :=
    transform_ok_elim resolve render lc versions (procInit version) rule metadata m' proc' hok
  have s1 := transformMembersAndCollectHeaders_spec _ _ _ _ _ _ _ hprops
  have s2 := transformMembersAndCollectHeaders_spec _ _ _ _ _ _ _ hmeth
  have s3 := transformMembersAndCollectHeaders_spec _ _ _ _ _ _ _ hev
  have heq1 : (("properties" : String) == "properties") = true := by decide
  have heq2 : (("methods" : String) == "properties") = false := by decide
  have heq3 : (("events" : String) == "properties") = false := by decide
  have hc1 : p1.hasConstants
      = (preparedMetadata lc metadata).properties.any (fun m => isConstantName m.name) := by
    have h := s1.2.2.1
    rw [heq1] at h
    simpa [procInit] using h
  have hc2 : p2.hasConstants = p1.hasConstants := by
    have h := s2.2.2.1
    rw [heq2] at h
    simpa using h
  have hc3 : proc'.hasConstants = p2.hasConstants := by
    have h := s3.2.2.1
    rw [heq3] at h
    simpa using h
  have hcm : m'.constants = props.filter (fun p => isConstantName p.name) := by
    rw [hm]
    simp [splitPropertiesAndConstants, splitLoop_eq]
  have hanylift : ∀ (l : List Member),
      l.any (fun m => isConstantName m.name) = (l.map Member.name).any isConstantName := by
    intro l
    induction l with
    | nil => rfl
    | cons a l ih => simp [List.any_cons, ih]
  have hany : props.any (fun m => isConstantName m.name)
      = (preparedMetadata lc metadata).properties.any (fun m => isConstantName m.name) := by
    rw [hanylift, hanylift, s1.1]
  have hb : proc'.hasConstants = !m'.constants.isEmpty := by
    rw [hc3, hc2, hc1, ← hany, hcm]
    exact any_eq_not_isEmpty_filter props _
  constructor
  · rw [hb]
    cases hcs : m'.constants with
    | nil => simp
    | cons x xs => simp
  · unfold appendAdditionalHeaders
    rw [hb]
    cases hcs : m'.constants.isEmpty with
    | true => simp [hcs]
    | false => simp [hcs]

/-- Closed instance of the C10 theorem on the concrete example type:
the flag is set and the Constants header is emitted, matching the
nonempty constants list. -/
theorem hasConstants_iff_constants_witness :
    (exProc2Out.hasConstants = true ↔ exMeta2Out.constants ≠ []) ∧
    appendAdditionalHeaders exProc2Out [] = exProc2Out.additionalHeaders ++
      (if exMeta2Out.constants.isEmpty then []
       else [{ level := 2, title := "Constants", slug := "constants" }]) :=
  hasConstants_iff_constants resolveNone renderId lcStd [] "next" LinkOpenRule.vueRouterLink
    exMeta2 exMeta2Out exProc2Out (by decide)

/-- A two-level mapping `version → typeName → α`, the shape of both the
metadata store and the process-wide `processed` cache, modelled as
association lists. -/
abbrev Store (α : Type) : Type := List (String × List (String × α))

/-- JavaScript object property read on an association list. -/
def assocFind {α : Type} : List (String × α) → String → Option α
  | [], _ => none
  | (k, v) :: rest, key => if k == key then some v else assocFind rest key

/-- JavaScript object property write on an association list. -/
def assocSet {α : Type} : List (String × α) → String → α → List (String × α)
  | [], key, v => [(key, v)]
  | (k0, v0) :: rest, key, v =>
    if k0 == key then (key, v) :: rest else (k0, v0) :: assocSet rest key v

/-- `processed[version] && processed[version][typeName]`-style lookup. -/
def lookup2 {α : Type} (store : Store α) (version typeName : String) : Option α :=
  match assocFind store version with
  | none => none
  | some types => assocFind types typeName

/-- `(processed[version] = processed[version] || {})[typeName] = v`. -/
def insert2 {α : Type} (store : Store α) (version typeName : String) (v : α) : Store α :=
  match store with
  | [] => [(version, [(typeName, v)])]
  | (k0, types) :: rest =>
    if k0 == version then (k0, assocSet types typeName v) :: rest
    else (k0, types) :: insert2 rest version typeName v

/-- Modelled from the spec: `metadataService.findMetadata` (the metadata
service lives in `lib/utils/metadata`, which is not among the provided
sources). Section 4.1: exact-name lookup within a version, returning no
match rather than failing. -/
def findMetadata (store : Store Metadata) (typeName version : String) : Option Metadata :=
  lookup2 store version typeName

/-- The `for (let typeName in typesMetadata)` scan of
`findMetadataWithLowerCasedKey`: return the first type whose lower-cased
name equals the query string; the query itself is never lower-cased. -/
def findLowerScan : List (String × Metadata) → String → Option Metadata
  | [], _ => none
  | (typeName, m) :: rest, q =>
    if toLowerJs typeName == q then some m else findLowerScan rest q

/-- `findMetadataWithLowerCasedKey(lowerCasedTypeName, version)`: linear
scan of the version's types comparing each stored name lower-cased
against the query verbatim. -/
def findMetadataWithLowerCasedKey (store : Store Metadata)
    (lowerCasedTypeName version : String) : Option Metadata :=
  match assocFind store version with
  | none => none
  | some typesMetadata => findLowerScan typesMetadata lowerCasedTypeName

/-- The types stored under a version (empty when the version is absent),
used to state lookup properties. -/
def versionTypes (store : Store Metadata) (version : String) :
    List (String × Metadata) :=
  match assocFind store version with
  | none => []
  | some types => types

/-- A character of the class `[\w.\-]` of the page path pattern. -/
def isWordChar (c : Char) : Bool :=
  c.isAlphanum || c = '_' || c = '.' || c = '-'

/-- The test `/^(\/[\w.\-]+)?\/api\//.test(page.regularPath)`: the path
starts with `/api/`, or with a slash, a nonempty run of word characters
and then `/api/`. Only a maximal run can be followed by the slash of
`/api/`, so taking the longest run is exhaustive. -/
def isApiPath (s : String) : Bool :=
  List.isPrefixOf "/api/".data s.data ||
  (match s.data with
   | '/' :: rest =>
     !(rest.takeWhile isWordChar).isEmpty &&
       List.isPrefixOf "/api/".data (rest.dropWhile isWordChar)
   | _ => false)

/-- The page fields `extendPageData` reads and writes; the frontmatter
`metadataKey` is lifted to a field, and the layout and css-class writes,
which no claim observes, are not tracked. -/
structure Page where
  regularPath : String
  title : String
  metadataKey : Option String
  version : Option String
  headers : List Header
deriving DecidableEq

/-- `page.frontmatter.metadataKey || page.title` (an empty string is
falsy). -/
def pageTypeName (page : Page) : String :=
  match page.metadataKey with
  | some k => if k.isEmpty then page.title else k
  | none => page.title

/-- `page.version || 'next'` (an empty string is falsy). -/
def pageVersion (page : Page) : String :=
  match page.version with
  | some v => if v.isEmpty then "next" else v
  | none => "next"

/-- The process-wide mutable state `extendPageData` touches: the
`processed` processor cache, the metadata store (whose objects the
pipeline mutates in place), and the shared renderer rule. -/
structure GlobalState where
  processed : Store MetadataProcessor
  store : Store Metadata
  mdRule : LinkOpenRule
deriving DecidableEq

/-- `extendPageData(page)`: ignore non-API paths; ignore pages without
metadata; on a cache hit only `appendAdditionalHeaders` runs and the
state is untouched; on a cache miss a fresh processor is constructed,
the pipeline runs once (mutating the stored metadata in place, modelled
by writing the transformed object back), the headers are appended, and
the processor is cached under (version, typeName). -/
def extendPageData (resolve : String → Option String → Option LinkTarget)
    (render : String → Except Unit String) (lc : String → String → Int)
    (versionsL : List String) (st : GlobalState) (page : Page) :
    Except Unit (GlobalState × Page) :=
  if !isApiPath page.regularPath then .ok (st, page)
  else
    match findMetadata st.store (pageTypeName page) (pageVersion page) with
    | none => .ok (st, page)
    | some metadata =>
      match lookup2 st.processed (pageVersion page) (pageTypeName page) with
      | some metadataProcessor =>
        .ok (st, { page with headers := appendAdditionalHeaders metadataProcessor page.headers })
      | none =>
        match transoformMetadataAndCollectHeaders resolve render lc versionsL
            (procInit (pageVersion page)) st.mdRule metadata with
        | ⟨.error e, _⟩ => .error e
        | ⟨.ok (metadataT, procT), ruleT⟩ =>
          .ok ({ processed := insert2 st.processed (pageVersion page) (pageTypeName page) procT,
                 store := insert2 st.store (pageVersion page) (pageTypeName page) metadataT,
                 mdRule := ruleT },
               { page with headers := appendAdditionalHeaders procT page.headers })

theorem assocFind_assocSet {α : Type} (l : List (String × α)) (k : String) (v : α) :
    assocFind (assocSet l k v) k = some v := by
  induction l with
  | nil => simp [assocSet, assocFind]
  | cons p rest ih =>
    obtain ⟨k0, v0⟩ := p
    by_cases hk : (k0 == k) = true
    · simp [assocSet, hk, assocFind]
    · have hk' : (k0 == k) = false := by
        cases hh : k0 == k
        · rfl
        · exact absurd hh hk
      simp [assocSet, hk', assocFind, ih]

theorem lookup2_insert2 {α : Type} (store : Store α) (version typeName : String) (v : α) :
    lookup2 (insert2 store version typeName v) version typeName = some v := by
  induction store with
  | nil => simp [insert2, lookup2, assocFind]
  | cons p rest ih =>
    obtain ⟨k0, types⟩ := p
    by_cases hk : (k0 == version) = true
    · simp [insert2, hk, lookup2, assocFind, assocFind_assocSet]
    · have hk' : (k0 == version) = false := by
        cases hh : k0 == version
        · rfl
        · exact absurd hh hk
      simpa [insert2, hk', lookup2, assocFind] using ih

/-- C1: on the first request for a (version, type) pair (nothing cached,
metadata found), `extendPageData` runs the pipeline once, appends the
headers and caches the processor; every later request for the same pair
finds that identical processor in the cache, leaves the whole global
state untouched (so the pipeline never reruns and the stored metadata is
not re-mutated) and only applies `appendAdditionalHeaders` to the page. -/
theorem extendPageData_cache (resolve : String → Option String → Option LinkTarget)
    (render : String → Except Unit String) (lc : String → String → Int)
    (versionsL : List String) (st st1 : GlobalState) (page page1 : Page)
    (m mT : Metadata) (procT : MetadataProcessor)
    (hapi : isApiPath page.regularPath = true)
    (hmeta : findMetadata st.store (pageTypeName page) (pageVersion page) = some m)
    (hnone : lookup2 st.processed (pageVersion page) (pageTypeName page) = none)
    (hrun : (transoformMetadataAndCollectHeaders resolve render lc versionsL
        (procInit (pageVersion page)) st.mdRule m).result = .ok (mT, procT))
    (hfirst : extendPageData resolve render lc versionsL st page = .ok (st1, page1)) :
    lookup2 st1.processed (pageVersion page) (pageTypeName page) = some procT ∧
    lookup2 st1.store (pageVersion page) (pageTypeName page) = some mT ∧
    page1 = { page with headers := appendAdditionalHeaders procT page.headers } ∧
    (∀ page2 : Page, isApiPath page2.regularPath = true →
      pageTypeName page2 = pageTypeName page →
      pageVersion page2 = pageVersion page →
      extendPageData resolve render lc versionsL st1 page2
        = .ok (st1, { page2 with headers := appendAdditionalHeaders procT page2.headers })) := by
  unfold extendPageData at hfirst
  rw [hapi] at hfirst
  simp only [Bool.not_true, Bool.false_eq_true, if_false] at hfirst
  rw [hmeta] at hfirst
  dsimp only at hfirst
  rw [hnone] at hfirst
  dsimp only at hfirst
  rcases hout : transoformMetadataAndCollectHeaders resolve render lc versionsL
      (procInit (pageVersion page)) st.mdRule m with ⟨res, ruleT⟩
  rw [hout] at hfirst hrun
  dsimp only at hfirst hrun
  subst hrun
  dsimp only at hfirst
  simp only [Except.ok.injEq, Prod.mk.injEq] at hfirst
  obtain ⟨hst, hpage⟩ := hfirst
  subst hst
  subst hpage
  refine ⟨lookup2_insert2 _ _ _ _, lookup2_insert2 _ _ _ _, rfl, ?_⟩
  intro page2 h2api h2tn h2v
  unfold extendPageData
  rw [h2api]
  simp only [Bool.not_true, Bool.false_eq_true, if_false]
  rw [h2tn, h2v]
  have hsm : findMetadata
      (insert2 st.store (pageVersion page) (pageTypeName page) mT)
      (pageTypeName page) (pageVersion page) = some mT := by
    unfold findMetadata
    exact lookup2_insert2 _ _ _ _
  rw [hsm]
  dsimp only
  rw [lookup2_insert2]

/-- The state before the first request of the C1 witness scenario. -/
def st0W : GlobalState :=
  { processed := [],
    store := [("next", [("Example.Type", emptyMeta)])],
    mdRule := LinkOpenRule.vueRouterLink }

/-- The state after the first request of the C1 witness scenario. -/
def st1W : GlobalState :=
  { processed := [("next", [("Example.Type", procInit "next")])],
    store := [("next", [("Example.Type", emptyMeta)])],
    mdRule := LinkOpenRule.vueRouterLink }

/-- The page of the C1 witness scenario. -/
def page0W : Page :=
  { regularPath := "/api/example", title := "Example.Type", metadataKey := none,
    version := none, headers := [] }

/-- Closed instance of the C1 theorem on a one-type store; every
hypothesis is discharged by evaluation. -/
theorem extendPageData_cache_witness :
    lookup2 st1W.processed (pageVersion page0W) (pageTypeName page0W)
      = some (procInit "next") ∧
    lookup2 st1W.store (pageVersion page0W) (pageTypeName page0W) = some emptyMeta ∧
    page0W = { page0W with headers := appendAdditionalHeaders (procInit "next") page0W.headers } ∧
    (∀ page2 : Page, isApiPath page2.regularPath = true →
      pageTypeName page2 = pageTypeName page0W →
      pageVersion page2 = pageVersion page0W →
      extendPageData resolveNone renderId lcStd [] st1W page2
        = .ok (st1W, { page2 with
            headers := appendAdditionalHeaders (procInit "next") page2.headers })) :=
  extendPageData_cache resolveNone renderId lcStd [] st0W st1W page0W page0W
    emptyMeta emptyMeta (procInit "next")
    (by decide) (by decide) (by decide) (by decide) (by decide)

theorem findLowerScan_spec (l : List (String × Metadata)) (q : String) :
    ((findLowerScan l q).isSome ↔ ∃ e ∈ l, toLowerJs e.1 = q) ∧
    (∀ m, findLowerScan l q = some m → ∃ e ∈ l, toLowerJs e.1 = q ∧ e.2 = m) := by
  induction l with
  | nil =>
    constructor
    · simp [findLowerScan]
    · intro m h
      simp [findLowerScan] at h
  | cons e rest ih =>
    obtain ⟨name, meta⟩ := e
    by_cases hq : (toLowerJs name == q) = true
    · have hqe : toLowerJs name = q := eq_of_beq hq
      constructor
      · constructor
        · intro _
          exact ⟨(name, meta), List.mem_cons_self _ _, hqe⟩
        · intro _
          rw [findLowerScan, if_pos hq]
          rfl
      · intro m h
        rw [findLowerScan, if_pos hq] at h
        simp only [Option.some.injEq] at h
        exact ⟨(name, meta), List.mem_cons_self _ _, hqe, h⟩
    · have hq' : (toLowerJs name == q) = false := by
        cases hh : toLowerJs name == q
        · rfl
        · exact absurd hh hq
      have hne : toLowerJs name ≠ q := by
        intro hcon
        rw [hcon] at hq'
        simp at hq'
      have hstep : findLowerScan ((name, meta) :: rest) q = findLowerScan rest q := by
        rw [findLowerScan, if_neg (by simp [hq'])]
      constructor
      · rw [hstep]
        constructor
        · intro h
          obtain ⟨e, he, hee⟩ := ih.1.mp h
          exact ⟨e, List.mem_cons_of_mem _ he, hee⟩
        · rintro ⟨e, he, hee⟩
          rcases List.mem_cons.mp he with heq | he'
          · rw [heq] at hee
            exact absurd hee hne
          · exact ih.1.mpr ⟨e, he', hee⟩
      · intro m h
        rw [hstep] at h
        obtain ⟨e, he, hee, hm⟩ := ih.2 m h
        exact ⟨e, List.mem_cons_of_mem _ he, hee, hm⟩

/-- C9 counterexample: the lookup lower-cases only the stored names,
never the query, so the query `FOO` does not find the stored type `Foo`
even though their lower-cased names agree; the all-lower-case query
`foo` does find it. -/
theorem findMetadataWithLowerCasedKey_counterexample :
    toLowerJs "Foo" = toLowerJs "FOO" ∧
    findMetadataWithLowerCasedKey [("v", [("Foo", emptyMeta)])] "FOO" "v" = none ∧
    findMetadataWithLowerCasedKey [("v", [("Foo", emptyMeta)])] "foo" "v"
      = some emptyMeta := by
  refine ⟨by decide, by decide, by decide⟩

/-- C9 amended: the lookup succeeds exactly when some stored type of the
version has a lower-cased name equal to the query string verbatim, and
then returns such a type's metadata (the first one in scan order); a
query that itself contains uppercase letters never matches. -/
theorem findMetadataWithLowerCasedKey_amended (store : Store Metadata) (q version : String) :
    ((findMetadataWithLowerCasedKey store q version).isSome ↔
      ∃ e ∈ versionTypes store version, toLowerJs e.1 = q) ∧
    (∀ m, findMetadataWithLowerCasedKey store q version = some m →
      ∃ e ∈ versionTypes store version, toLowerJs e.1 = q ∧ e.2 = m) := by
  unfold findMetadataWithLowerCasedKey versionTypes
  cases assocFind store version with
  | none =>
    constructor
    · simp
    · intro m h
      simp at h
  | some types => exact findLowerScan_spec types q

/-- Closed instance of the C9 amended theorem: the lower-case query
finds the case-differing stored name. -/
theorem findMetadataWithLowerCasedKey_amended_witness :
    (findMetadataWithLowerCasedKey [("v", [("Foo", emptyMeta)])] "foo" "v").isSome :=
  (findMetadataWithLowerCasedKey_amended [("v", [("Foo", emptyMeta)])] "foo" "v").1.mpr
    ⟨("Foo", emptyMeta), by decide, by decide⟩

/-- Closed instance of the C2 theorem at the example type: the split
`properties` list is a sublist of the pre-split one. -/
theorem splitPropertiesAndConstants_partition_witness :
    List.Sublist (splitPropertiesAndConstants exMeta2).properties exMeta2.properties :=
  (splitPropertiesAndConstants_partition exMeta2).2.2.2.2.2.1

/-- Closed instance of the C4 theorem at the example type: the filtered
`properties` list is a sublist of its input. -/
theorem filterInheritedMembers_correct_witness :
    List.Sublist (filterInheritedMembers exMeta2).properties exMeta2.properties :=
  (filterInheritedMembers_correct exMeta2).2.2.2.2.1

/-- Closed instance of the C6 amended theorem at the counterexample
configuration. -/
theorem versionArg_spec_witness :
    versionArg ["1.0"] "next" = some "next" ↔
      ¬((["1.0"] : List String) = [] ∨ (["1.0"] : List String).head? = some "next") :=
  (versionArg_spec ["1.0"] "next").2

end ApiDoc
